import Mathlib

/-!
Verification of the LLM council orchestration core (`backend/council.py`,
`backend/openrouter.py`, `backend/config.py`).

Texts are embedded as `List Char` (Python `str` is a sequence of code
points; Lean's `String` wraps exactly such a list, and concrete literals
are written `"...".data`).  Python `float` averages are embedded as exact
rationals `ℚ`; `round(x, 2)` is embedded as rounding `100*x` to the
nearest integer.  The network gateway (`query_model`) is embedded as an
abstract deterministic function from a model identifier and a message
list to `Option GatewayResult`: `none` is the collapsed failure signal
(any transport error, bad status, malformed shape or timeout), matching
the `except`-to-`None` handler in `openrouter.query_model`.
-/

namespace Council

/-- A text: a Python string as its list of characters. -/
abbrev Text := List Char

/-- Python's `\s` whitespace class, restricted to its ASCII members
(` `, `\t`, `\n`, `\r`, `\x0b`, `\x0c`); the model texts are treated at
this granularity. -/
def isPySpace (c : Char) : Bool :=
  c = ' ' || c = '\t' || c = '\n' || c = '\r' || c = '\x0b' || c = '\x0c'

/-- Python's `\d` digit class (ASCII digits). -/
def isPyDigit (c : Char) : Bool :=
  '0' ≤ c && c ≤ '9'

/-- The regex class `[A-Z]`. -/
def isUpperAZ (c : Char) : Bool :=
  'A' ≤ c && c ≤ 'Z'

/-- The literal text `"Response "` that both regexes of
`parse_ranking_from_text` open with. -/
def bareHead : Text := "Response ".data

/-- The literal marker `"FINAL RANKING:"`. -/
def marker : Text := "FINAL RANKING:".data

/-- One attempted match of the regex `Response [A-Z]` at the head of `l`:
on success, the matched text (always `"Response "` plus one uppercase
letter) and the remaining characters after the match. -/
def matchBare (l : Text) : Option (Text × Text) :=
  if bareHead.isPrefixOf l then
    match l.drop bareHead.length with
    | c :: rest => if isUpperAZ c then some (bareHead ++ [c], rest) else none
    | [] => none
  else none

/-- Fuel-driven scan implementing `re.findall(r'Response [A-Z]', ...)`:
left to right, non-overlapping, restarting one character later when no
match starts at the current position.  The fuel is instantiated with the
text length, which always suffices (each step consumes at least one
character). -/
def findallBareF : Nat → Text → List Text
  | 0, _ => []
  | _ + 1, [] => []
  | fuel + 1, c :: cs =>
    match matchBare (c :: cs) with
    | some (m, rest) => m :: findallBareF fuel rest
    | none => findallBareF fuel cs

/-- `re.findall(r'Response [A-Z]', t)`. -/
def findallBare (t : Text) : List Text :=
  findallBareF t.length t

/-- `re.search(r'Response [A-Z]', t)`: the leftmost match, if any. -/
def searchBare (t : Text) : Option Text :=
  (findallBare t).head?

/-- One attempted match of the regex `\d+\.\s*Response [A-Z]` at the head
of `l` (the character classes are disjoint from the literals that follow
them, so the greedy maximal-run reading used here agrees with Python's
backtracking semantics).  On success, the full matched text and the rest. -/
def matchNumbered (l : Text) : Option (Text × Text) :=
  let ds := l.takeWhile isPyDigit
  if ds.isEmpty then none else
  match l.dropWhile isPyDigit with
  | '.' :: r1 =>
    let sp := r1.takeWhile isPySpace
    let r2 := r1.dropWhile isPySpace
    if bareHead.isPrefixOf r2 then
      match r2.drop bareHead.length with
      | c :: rest =>
        if isUpperAZ c then some (ds ++ '.' :: (sp ++ (bareHead ++ [c])), rest)
        else none
      | [] => none
    else none
  | _ => none

/-- Fuel-driven scan implementing
`re.findall(r'\d+\.\s*Response [A-Z]', ...)`, analogous to
`findallBareF`. -/
def findallNumberedF : Nat → Text → List Text
  | 0, _ => []
  | _ + 1, [] => []
  | fuel + 1, c :: cs =>
    match matchNumbered (c :: cs) with
    | some (m, rest) => m :: findallNumberedF fuel rest
    | none => findallNumberedF fuel cs

/-- `re.findall(r'\d+\.\s*Response [A-Z]', t)`. -/
def findallNumbered (t : Text) : List Text :=
  findallNumberedF t.length t

/-- Python's `"FINAL RANKING:" in t`. -/
def containsMarker : Text → Bool
  | [] => false
  | c :: cs => marker.isPrefixOf (c :: cs) || containsMarker cs

/-- Fuel-driven scan implementing Python's `t.split("FINAL RANKING:")`:
cut at each non-overlapping occurrence of the marker, left to right.
`acc` holds the current field, reversed. -/
def splitMarkerF : Nat → Text → Text → List Text
  | 0, rest, acc => [acc.reverse ++ rest]
  | _ + 1, [], acc => [acc.reverse]
  | fuel + 1, c :: cs, acc =>
    if marker.isPrefixOf (c :: cs) then
      acc.reverse :: splitMarkerF fuel ((c :: cs).drop marker.length) []
    else
      splitMarkerF fuel cs (c :: acc)

/-- `t.split("FINAL RANKING:")`. -/
def splitMarker (t : Text) : List Text :=
  splitMarkerF t.length t []

/-- `council.parse_ranking_from_text`: extract the ranking labels from an
evaluator's free-form text.  If the marker is present, the scan is
restricted to `parts[1]` of the split; numbered matches take priority,
each reduced to its `Response <letter>` portion by an inner
`re.search`; otherwise bare matches of the restricted text; with no
marker, bare matches of the whole text. -/
def parse_ranking_from_text (t : Text) : List Text :=
  if containsMarker t then
    let parts := splitMarker t
    if 2 ≤ parts.length then
      let ranking_section := parts.getD 1 []
      let numbered := findallNumbered ranking_section
      if ¬ numbered.isEmpty then
        numbered.map (fun m => (searchBare m).getD [])
      else
        findallBare ranking_section
    else
      findallBare t
  else
    findallBare t

example :
    parse_ranking_from_text "blah blah\nFINAL RANKING:\n1. Response B\n2. Response A\n".data
      = ["Response B".data, "Response A".data] := by decide

example : parse_ranking_from_text "no labels at all".data = [] := by decide

example :
    parse_ranking_from_text "I like Response C more than Response A".data
      = ["Response C".data, "Response A".data] := by decide

/-- One message turn sent to a model (`{"role": ..., "content": ...}`). -/
structure Message where
  role : Text
  content : Text
deriving DecidableEq

/-- The successful payload of `openrouter.query_model`: the generated
`content` plus the optional `reasoning_details` pass-through.  A provider
answering with a null `content` field is outside this model: `content`
is the answer text. -/
structure GatewayResult where
  content : Text
  reasoning_details : Option Text
deriving DecidableEq

/-- The abstract model gateway: what `openrouter.query_model` computes,
seen as a deterministic function of the model identifier and message
list; `none` is the collapsed failure signal of its `except` handler. -/
abbrev Gateway := Text → List Message → Option GatewayResult

/-- The single-turn user message every stage of `council.py` sends:
`[{"role": "user", "content": ...}]` always wraps its prompt this way. -/
def userMsg (t : Text) : Message :=
  ⟨"user".data, t⟩

/-- `openrouter.query_models_parallel`: one gateway call per requested
model, gathered back into a mapping keyed by model identifier.  The
Python `dict` built by `{model: response for model, response in
zip(models, responses)}` preserves insertion order, so it is embedded as
the association list in request order (roster identifiers are distinct
wherever the code builds this dict). -/
def query_models_parallel (g : Gateway) (models : List Text)
    (messages : List Message) : List (Text × Option GatewayResult) :=
  models.map (fun m => (m, g m messages))

/-- `config.COUNCIL_MODELS`: the council roster, in configured order. -/
def COUNCIL_MODELS : List Text :=
  ["tngtech/tng-r1t-chimera:free".data,
   "openrouter/bert-nebulon-alpha".data,
   "x-ai/grok-4.1-fast:free".data,
   "kwaipilot/kat-coder-pro:free".data]

/-- `config.CHAIRMAN_MODEL`. -/
def CHAIRMAN_MODEL : Text := "tngtech/tng-r1t-chimera:free".data

/-- A stage-1 answer: `{"model": ..., "response": ...}`. -/
structure AnswerRecord where
  model : Text
  response : Text
deriving DecidableEq

/-- `council.stage1_collect_responses`: fan the query out over the
roster and keep, in mapping order, the entries whose response is
present. -/
def stage1_collect_responses (g : Gateway) (user_query : Text) :
    List AnswerRecord :=
  let messages := [userMsg user_query]
  let responses := query_models_parallel g COUNCIL_MODELS messages
  responses.filterMap (fun p => p.2.map (fun r => ⟨p.1, r.content⟩))

/-- The label letters `[chr(65 + i) for i in range(n)]`. -/
def labelsList (n : Nat) : List Char :=
  (List.range n).map (fun i => Char.ofNat (65 + i))

/-- The `label_to_model` dict of `council.stage2_collect_rankings`:
`"Response <label>"` keys to model identifiers, by position. -/
def label_to_model (stage1_results : List AnswerRecord) :
    List (Text × Text) :=
  ((labelsList stage1_results.length).zip stage1_results).map
    (fun p => ("Response ".data ++ [p.1], p.2.model))

/-- The `responses_text` block of `council.stage2_collect_rankings`:
`"Response <label>:\n<text>"` entries joined by a blank line, in input
order. -/
def responses_text (stage1_results : List AnswerRecord) : Text :=
  List.intercalate "\n\n".data
    (((labelsList stage1_results.length).zip stage1_results).map
      (fun p => "Response ".data ++ [p.1] ++ ":\n".data ++ p.2.response))

/-- The `ranking_prompt` template of `council.stage2_collect_rankings`
(the f-string with its two holes filled). -/
def ranking_prompt (user_query : Text) (responsesText : Text) : Text :=
  "당신은 다음 질문에 대한 서로 다른 응답들을 평가해야 합니다:\n\n질문: ".data
    ++ user_query
    ++ "\n\n다음은 서로 다른 모델들의 응답입니다 (익명 처리됨):\n\n".data
    ++ responsesText
    ++ ("\n\n당신의 과제:\n1. 먼저 각 응답을 개별적으로 평가하십시오. 각 응답에 대해 장점과 단점을 설명해야 합니다.\n"
        ++ "2. 그런 다음, 답변의 맨 마지막에 최종 순위를 제공하십시오.\n\n"
        ++ "중요: 최종 순위는 반드시 아래 형식을 정확히 따라야 합니다:\n"
        ++ "- \"FINAL RANKING:\"이라는 줄로 시작하십시오 (모두 대문자, 콜론 포함).\n"
        ++ "- 그 다음, 가장 좋은 응답부터 가장 나쁜 응답 순서로 번호를 매겨 나열하십시오.\n"
        ++ "- 각 줄은 '번호, 마침표, 공백, 그리고 오직 응답 라벨'로만 구성되어야 합니다 (예: \"1. Response A\").\n"
        ++ "- 순위 섹션에는 다른 텍스트나 설명을 절대 추가하지 마십시오.\n\n"
        ++ "전체 답변의 올바른 형식 예시:\n\n"
        ++ "Response A는 X에 대해 자세히 설명하지만 Y를 놓쳤습니다...\n"
        ++ "Response B는 정확하지만 Z에 대한 깊이가 부족합니다...\n"
        ++ "Response C는 가장 포괄적인 답변을 제공합니다...\n\n"
        ++ "FINAL RANKING:\n1. Response C\n2. Response A\n3. Response B\n\n"
        ++ "이제 평가와 순위를 작성해 주십시오:").data

/-- A stage-2 evaluation: the evaluator, its full text, and the parsed
ranking stored alongside. -/
structure RankingRecord where
  model : Text
  ranking : Text
  parsed_ranking : List Text
deriving DecidableEq

/-- `council.stage2_collect_rankings`: build the anonymized block and
label map from the stage-1 records, fan the ranking prompt out over the
full roster, and keep the evaluations that arrived, each with its parsed
ranking. -/
def stage2_collect_rankings (g : Gateway) (user_query : Text)
    (stage1_results : List AnswerRecord) :
    List RankingRecord × List (Text × Text) :=
  let lmap := label_to_model stage1_results
  let prompt := ranking_prompt user_query (responses_text stage1_results)
  let messages := [userMsg prompt]
  let responses := query_models_parallel g COUNCIL_MODELS messages
  (responses.filterMap (fun p => p.2.map (fun r =>
      ⟨p.1, r.content, parse_ranking_from_text r.content⟩)),
   lmap)

/-- The chairman's stage-3 answer (or its sentinel error text). -/
structure SynthesisResult where
  model : Text
  response : Text
deriving DecidableEq

/-- The `stage1_text` rendering of `council.stage3_synthesize_final`:
true model names, joined by blank lines. -/
def stage1_text (stage1_results : List AnswerRecord) : Text :=
  List.intercalate "\n\n".data
    (stage1_results.map (fun r =>
      "Model: ".data ++ r.model ++ "\nResponse: ".data ++ r.response))

/-- The `stage2_text` rendering of `council.stage3_synthesize_final`:
evaluator names with their raw ranking texts. -/
def stage2_text (stage2_results : List RankingRecord) : Text :=
  List.intercalate "\n\n".data
    (stage2_results.map (fun r =>
      "Model: ".data ++ r.model ++ "\nRanking: ".data ++ r.ranking))

/-- The `chairman_prompt` template of `council.stage3_synthesize_final`. -/
def chairman_prompt (user_query : Text) (s1Text s2Text : Text) : Text :=
  ("당신은 LLM 위원회의 의장입니다. 여러 AI 모델이 사용자의 질문에 대한 응답을 제공했고, "
      ++ "이후 서로의 응답에 순위를 매겼습니다.\n\n원래 질문: ").data
    ++ user_query
    ++ "\n\n1단계 - 개별 응답:\n".data
    ++ s1Text
    ++ "\n\n2단계 - 동료 평가 순위:\n".data
    ++ s2Text
    ++ ("\n\n의장으로서 당신의 임무는 이 모든 정보를 종합하여 사용자의 원래 질문에 대한 하나의 "
        ++ "포괄적이고 정확한 답변을 만드는 것입니다. 다음 사항을 고려하십시오:\n"
        ++ "- 개별 응답들과 그들의 통찰력\n"
        ++ "- 동료 평가 순위와 그것이 응답 품질에 대해 드러내는 것\n"
        ++ "- 합의 또는 불일치의 패턴\n\n"
        ++ "위원회의 집단 지혜를 대표하는 명확하고 논리적인 최종 답변을 제공하십시오:").data

/-- `council.stage3_synthesize_final`: one single gateway call to the
chairman; on failure, the sentinel error response. -/
def stage3_synthesize_final (g : Gateway) (user_query : Text)
    (stage1_results : List AnswerRecord)
    (stage2_results : List RankingRecord) : SynthesisResult :=
  let prompt := chairman_prompt user_query
      (stage1_text stage1_results) (stage2_text stage2_results)
  match g CHAIRMAN_MODEL [userMsg prompt] with
  | none => ⟨CHAIRMAN_MODEL, "오류: 최종 종합 답변을 생성할 수 없습니다.".data⟩
  | some r => ⟨CHAIRMAN_MODEL, r.content⟩

/-- One line of the aggregate ranking:
`{"model": ..., "average_rank": ..., "rankings_count": ...}`.  The Python
float average is embedded as an exact rational. -/
structure AggregateEntry where
  model : Text
  average_rank : ℚ
  rankings_count : Nat
deriving DecidableEq

/-- Python's `round(x, 2)`: round `100 * x` to the nearest integer. -/
def round2 (q : ℚ) : ℚ :=
  (round (q * 100) : ℤ) / 100

/-- Dict lookup `label_to_model[label]` guarded by
`label in label_to_model`, as one optional lookup (the dict's keys are
distinct, so first-match association lookup is faithful). -/
def lookupLabel (lmap : List (Text × Text)) (label : Text) : Option Text :=
  (lmap.find? (fun p => decide (p.1 = label))).map (fun p => p.2)

/-- `model_positions[model_name].append(position)` on the insertion-ordered
`defaultdict(list)`: append to the entry of `m`, or create it at the end. -/
def addPos (mp : List (Text × List Nat)) (m : Text) (pos : Nat) :
    List (Text × List Nat) :=
  match mp with
  | [] => [(m, [pos])]
  | e :: rest =>
    if e.1 = m then (e.1, e.2 ++ [pos]) :: rest else e :: addPos rest m pos

/-- One step of Python's stable insertion: place `x` after every entry
whose key is less than or equal to its own. -/
def insertByAvg (x : AggregateEntry) :
    List AggregateEntry → List AggregateEntry
  | [] => [x]
  | y :: ys =>
    if y.average_rank ≤ x.average_rank then y :: insertByAvg x ys
    else x :: y :: ys

/-- `aggregate.sort(key=lambda x: x['average_rank'])`: Python's sort is
stable, and a stable sort by a fixed key is unique, so it is embedded as
left-to-right insertion that keeps each element after earlier equals. -/
def sortByAvg (l : List AggregateEntry) : List AggregateEntry :=
  l.foldl (fun acc x => insertByAvg x acc) []

/-- `council.calculate_aggregate_rankings`: re-parse each evaluation's
raw text, walk the parsed labels with positions starting at 1, skip
labels outside the label map, collect per-model position lists, then
average (rounded to 2 decimals), count, and sort ascending by average. -/
def calculate_aggregate_rankings (stage2_results : List RankingRecord)
    (lmap : List (Text × Text)) : List AggregateEntry :=
  let model_positions := stage2_results.foldl (fun acc r =>
    (List.enumFrom 1 (parse_ranking_from_text r.ranking)).foldl
      (fun acc2 pl =>
        match lookupLabel lmap pl.2 with
        | some model_name => addPos acc2 model_name pl.1
        | none => acc2)
      acc) []
  let aggregate := model_positions.filterMap (fun e =>
    if e.2.isEmpty then none
    else some ⟨e.1, round2 ((e.2.sum : ℚ) / (e.2.length : ℚ)), e.2.length⟩)
  sortByAvg aggregate

/-- Strip characters satisfying `p` from both ends (Python `str.strip`). -/
def stripEnds (p : Char → Bool) (t : Text) : Text :=
  ((t.dropWhile p).reverse.dropWhile p).reverse

/-- The characters removed by `title.strip('"\'')`. -/
def isQuoteChar (c : Char) : Bool :=
  c = '"' || c = '\''

/-- The two strips of `council.generate_conversation_title`:
whitespace first, then surrounding quote characters. -/
def cleanTitle (content : Text) : Text :=
  stripEnds isQuoteChar (stripEnds isPySpace content)

/-- The fixed default title `"새 대화"`. -/
def DEFAULT_TITLE : Text := "새 대화".data

/-- The `title_prompt` template of `council.generate_conversation_title`. -/
def title_prompt (user_query : Text) : Text :=
  ("다음 질문을 요약하는 매우 짧은 제목(최대 3-5 단어)을 생성하십시오.\n"
      ++ "제목은 간결하고 설명적이어야 합니다. 제목에 따옴표나 구두점을 사용하지 마십시오.\n\n질문: ").data
    ++ user_query
    ++ "\n\n제목:".data

/-- `council.generate_conversation_title`: one call to the fixed
lightweight model; on failure the default title, otherwise the stripped
text truncated to 47 characters plus `"..."` when longer than 50.
(`response.get('content', '새 대화')` reduces to the content field:
every successful `query_model` result carries a `content` key.) -/
def generate_conversation_title (g : Gateway) (user_query : Text) : Text :=
  match g "google/gemini-2.5-flash".data [userMsg (title_prompt user_query)] with
  | none => DEFAULT_TITLE
  | some r =>
    let title := cleanTitle r.content
    if 50 < title.length then title.take 47 ++ "...".data else title

/-- The pipeline metadata dict; `none` embeds the empty dict `{}` of the
total-failure path. -/
structure Metadata where
  label_to_model : List (Text × Text)
  aggregate_rankings : List AggregateEntry
deriving DecidableEq

/-- The 4-tuple `run_full_council` returns. -/
structure CouncilOutput where
  stage1 : List AnswerRecord
  stage2 : List RankingRecord
  stage3 : SynthesisResult
  metadata : Option Metadata
deriving DecidableEq

/-- The sentinel message of the total-failure path. -/
def ALL_FAILED_MESSAGE : Text :=
  "모든 모델이 응답에 실패했습니다. 다시 시도해 주십시오.".data

/-- `council.run_full_council`: the three-stage pipeline.  When every
stage-1 call failed it stops with the sentinel output; otherwise it runs
stage 2, aggregation and stage 3 and bundles the metadata.  The
embedding is a total function: no branch raises. -/
def run_full_council (g : Gateway) (user_query : Text) : CouncilOutput :=
  let stage1_results := stage1_collect_responses g user_query
  if stage1_results.isEmpty then
    ⟨[], [], ⟨"error".data, ALL_FAILED_MESSAGE⟩, none⟩
  else
    let s2 := stage2_collect_rankings g user_query stage1_results
    let aggregate_rankings := calculate_aggregate_rankings s2.1 s2.2
    let stage3_result := stage3_synthesize_final g user_query stage1_results s2.1
    ⟨stage1_results, s2.1, stage3_result,
     some ⟨s2.2, aggregate_rankings⟩⟩

/-- Instrumentation: the gateway invocations `run_full_council` performs,
in order, as (model, messages) pairs — the stage-1 fan-out over the
roster, then (unless stage 1 failed totally) the stage-2 fan-out and the
single chairman call. -/
def run_full_council_calls (g : Gateway) (user_query : Text) :
    List (Text × List Message) :=
  let messages1 := [userMsg user_query]
  let calls1 := COUNCIL_MODELS.map (fun m => (m, messages1))
  let stage1_results := stage1_collect_responses g user_query
  if stage1_results.isEmpty then
    calls1
  else
    let prompt2 := ranking_prompt user_query (responses_text stage1_results)
    let s2 := stage2_collect_rankings g user_query stage1_results
    let prompt3 := chairman_prompt user_query
        (stage1_text stage1_results) (stage2_text s2.1)
    calls1 ++ COUNCIL_MODELS.map (fun m => (m, [userMsg prompt2]))
      ++ [(CHAIRMAN_MODEL, [userMsg prompt3])]

/-- The text strictly after the first occurrence of the marker (`none`
when the marker does not occur). -/
def textAfterFirstMarker : Text → Option Text
  | [] => none
  | c :: cs =>
    if marker.isPrefixOf (c :: cs) then some ((c :: cs).drop marker.length)
    else textAfterFirstMarker cs

/-- Claim-side parser for C1: scan the ENTIRE suffix after the first
occurrence of the marker (including any later occurrences), numbered
matches first, then bare ones; whole text when the marker is absent. -/
def parse_ranking_entire_suffix (t : Text) : List Text :=
  match textAfterFirstMarker t with
  | some suffixText =>
    let numbered := findallNumbered suffixText
    if ¬ numbered.isEmpty then
      numbered.map (fun m => (searchBare m).getD [])
    else
      findallBare suffixText
  | none => findallBare t

/-- The restricted-text scan of `parse_ranking_from_text`: numbered
matches first (each reduced to its `Response <letter>` portion), bare
matches otherwise. -/
def parseSection (sec : Text) : List Text :=
  if ¬ (findallNumbered sec).isEmpty then
    (findallNumbered sec).map (fun m => (searchBare m).getD [])
  else
    findallBare sec

/-- The label/position mentions the aggregator walks, flattened: for
each record in order, the parsed labels with positions 1, 2, 3, …,
resolved through the label map, labels absent from the map silently
skipped. -/
def mentionPairs (stage2_results : List RankingRecord)
    (lmap : List (Text × Text)) : List (Text × Nat) :=
  stage2_results.flatMap (fun r =>
    (List.enumFrom 1 (parse_ranking_from_text r.ranking)).filterMap
      (fun pl => (lookupLabel lmap pl.2).map (fun mname => (mname, pl.1))))

/-- The positions collected for one model, in mention order. -/
def positionsFor (pairs : List (Text × Nat)) (m : Text) : List Nat :=
  pairs.filterMap (fun p => if p.1 = m then some p.2 else none)

/-- First occurrences of a list, in order of first appearance. -/
def firstOccur : List Text → List Text
  | [] => []
  | x :: xs => x :: (firstOccur xs).filter (fun y => decide (¬ y = x))

/-- The spec-side aggregate list before sorting (claim C2): one entry
per mentioned model in order of first mention — the arithmetic mean of
the model's collected positions rounded to 2 decimals, and their count;
models never mentioned are absent. -/
def preAggregate (stage2_results : List RankingRecord)
    (lmap : List (Text × Text)) : List AggregateEntry :=
  (firstOccur ((mentionPairs stage2_results lmap).map Prod.fst)).map (fun m =>
    ⟨m,
     round2 (((positionsFor (mentionPairs stage2_results lmap) m).sum : ℚ)
       / ((positionsFor (mentionPairs stage2_results lmap) m).length : ℚ)),
     (positionsFor (mentionPairs stage2_results lmap) m).length⟩)

/-- Spec-side aggregate (claim C2): the pre-sort entries, stable-sorted
ascending by average rank. -/
def aggregateSpec (stage2_results : List RankingRecord)
    (lmap : List (Text × Text)) : List AggregateEntry :=
  sortByAvg (preAggregate stage2_results lmap)

/-- Ascending order on aggregate entries by average rank. -/
def entryLE (a b : AggregateEntry) : Prop :=
  a.average_rank ≤ b.average_rank

/-- Variant aggregator for C9: identical to
`calculate_aggregate_rankings` except that it reads each record's stored
`parsed_ranking` field instead of re-parsing the raw text. -/
def calculate_aggregate_rankings_parsed (stage2_results : List RankingRecord)
    (lmap : List (Text × Text)) : List AggregateEntry :=
  let model_positions := stage2_results.foldl (fun acc r =>
    (List.enumFrom 1 r.parsed_ranking).foldl
      (fun acc2 pl =>
        match lookupLabel lmap pl.2 with
        | some model_name => addPos acc2 model_name pl.1
        | none => acc2)
      acc) []
  let aggregate := model_positions.filterMap (fun e =>
    if e.2.isEmpty then none
    else some ⟨e.1, round2 ((e.2.sum : ℚ) / (e.2.length : ℚ)), e.2.length⟩)
  sortByAvg aggregate

/-! ### Lemmas about the regex scans -/

theorem matchBare_eq_append {l m rest : Text}
    (h : matchBare l = some (m, rest)) : l = m ++ rest ∧ m ≠ [] := by
  unfold matchBare at h
  split at h
  case isTrue hp =>
    obtain ⟨t, ht⟩ := List.isPrefixOf_iff_prefix.mp hp
    have hdrop : l.drop bareHead.length = t := by
      rw [← ht, List.drop_left]
    rw [hdrop] at h
    split at h
    case h_1 =>
      split at h
      case isTrue hu =>
        injection h with h2
        cases h2
        refine ⟨?_, by simp [bareHead]⟩
        rw [← ht]
        simp
      case isFalse => exact absurd h (by simp)
    case h_2 => exact absurd h (by simp)
  case isFalse => exact absurd h (by simp)

theorem findallBareF_isInfix :
    ∀ (fuel : Nat) (t : Text), ∀ m ∈ findallBareF fuel t, m <:+: t := by
  intro fuel
  induction fuel with
  | zero => intro t m hm; simp [findallBareF] at hm
  | succ f ih =>
    intro t m hm
    match t with
    | [] => simp [findallBareF] at hm
    | c :: cs =>
      rw [findallBareF] at hm
      split at hm
      case h_1 m0 rest heq =>
        obtain ⟨hl, _⟩ := matchBare_eq_append heq
        rcases List.mem_cons.mp hm with hm | hm
        · exact hm ▸ ⟨[], rest, by simpa using hl.symm⟩
        · exact (ih rest m hm).trans ⟨m0, [], by simpa using hl.symm⟩
      case h_2 =>
        exact (ih cs m hm).trans ⟨[c], [], by simp⟩

theorem findallBare_isInfix (t : Text) : ∀ m ∈ findallBare t, m <:+: t :=
  findallBareF_isInfix t.length t

theorem matchNumbered_eq_append {l m rest : Text}
    (h : matchNumbered l = some (m, rest)) : l = m ++ rest ∧ m ≠ [] := by
  unfold matchNumbered at h
  simp only [] at h
  split at h
  case isTrue => exact absurd h (by simp)
  case isFalse hds =>
    split at h
    case h_2 => exact absurd h (by simp)
    case h_1 r1 heq1 =>
      split at h
      case isTrue hp =>
        obtain ⟨t2, ht2⟩ := List.isPrefixOf_iff_prefix.mp hp
        have hdrop : (r1.dropWhile isPySpace).drop bareHead.length = t2 := by
          rw [← ht2, List.drop_left]
        rw [hdrop] at h
        split at h
        case h_1 =>
          split at h
          case isTrue hu =>
            injection h with h2
            cases h2
            constructor
            · conv_lhs => rw [← List.takeWhile_append_dropWhile isPyDigit l]
              rw [heq1]
              conv_lhs => rw [← List.takeWhile_append_dropWhile isPySpace r1]
              rw [← ht2]
              simp
            · simp [List.isEmpty_iff] at hds
              simp [hds]
          case isFalse => exact absurd h (by simp)
        case h_2 => exact absurd h (by simp)
      case isFalse => exact absurd h (by simp)

theorem findallNumberedF_isInfix :
    ∀ (fuel : Nat) (t : Text), ∀ m ∈ findallNumberedF fuel t, m <:+: t := by
  intro fuel
  induction fuel with
  | zero => intro t m hm; simp [findallNumberedF] at hm
  | succ f ih =>
    intro t m hm
    match t with
    | [] => simp [findallNumberedF] at hm
    | c :: cs =>
      rw [findallNumberedF] at hm
      split at hm
      case h_1 m0 rest heq =>
        obtain ⟨hl, _⟩ := matchNumbered_eq_append heq
        rcases List.mem_cons.mp hm with hm | hm
        · exact hm ▸ ⟨[], rest, by simpa using hl.symm⟩
        · exact (ih rest m hm).trans ⟨m0, [], by simpa using hl.symm⟩
      case h_2 =>
        exact (ih cs m hm).trans ⟨[c], [], by simp⟩

theorem findallNumbered_isInfix (t : Text) : ∀ m ∈ findallNumbered t, m <:+: t :=
  findallNumberedF_isInfix t.length t

theorem searchBare_isInfix (t : Text) : (searchBare t).getD [] <:+: t := by
  unfold searchBare
  match hh : (findallBare t).head? with
  | none => simp
  | some m =>
    simpa using findallBare_isInfix t m (List.mem_of_mem_head? hh)

/-! ### Lemmas about the marker split -/

theorem splitMarkerF_congr :
    ∀ (f₁ f₂ : Nat) (xs acc : Text), xs.length ≤ f₁ → xs.length ≤ f₂ →
      splitMarkerF f₁ xs acc = splitMarkerF f₂ xs acc := by
  intro f₁
  induction f₁ with
  | zero =>
    intro f₂ xs acc h1 _
    have hx : xs = [] := List.eq_nil_of_length_eq_zero (Nat.le_zero.mp h1)
    subst hx
    cases f₂ <;> simp [splitMarkerF]
  | succ f ih =>
    intro f₂ xs acc h1 h2
    match xs, f₂ with
    | [], 0 => simp [splitMarkerF]
    | [], k + 1 => simp [splitMarkerF]
    | c :: cs, 0 => simp at h2
    | c :: cs, k + 1 =>
      rw [splitMarkerF, splitMarkerF]
      by_cases hp : marker.isPrefixOf (c :: cs)
      · simp only [hp, if_true]
        have hdl := List.length_drop marker.length (c :: cs)
        have hcs := List.length_cons c cs
        have hm : 1 ≤ marker.length := by decide
        have hlen : ((c :: cs).drop marker.length).length ≤ f := by omega
        have hlen2 : ((c :: cs).drop marker.length).length ≤ k := by omega
        rw [ih k _ [] hlen hlen2]
      · simp only [hp, if_false]
        have hcs := List.length_cons c cs
        have hl1 : cs.length ≤ f := by omega
        have hl2 : cs.length ≤ k := by omega
        exact ih k cs (c :: acc) hl1 hl2

theorem splitMarkerF_head :
    ∀ (f : Nat) (xs acc : Text), xs.length ≤ f →
      ∃ b r, splitMarkerF f xs acc = (acc.reverse ++ b) :: r ∧ b <+: xs ∧
        containsMarker b = false := by
  intro f
  induction f with
  | zero =>
    intro xs acc h1
    have hx : xs = [] := List.eq_nil_of_length_eq_zero (Nat.le_zero.mp h1)
    subst hx
    exact ⟨[], [], by simp [splitMarkerF, containsMarker]⟩
  | succ f ih =>
    intro xs acc h1
    match xs with
    | [] => exact ⟨[], [], by simp [splitMarkerF, containsMarker]⟩
    | c :: cs =>
      rw [splitMarkerF]
      by_cases hp : marker.isPrefixOf (c :: cs)
      · exact ⟨[], splitMarkerF f ((c :: cs).drop marker.length) [],
          by simp [hp], by simp, by simp [containsMarker]⟩
      · simp only [hp, if_false]
        have hcs := List.length_cons c cs
        have hl1 : cs.length ≤ f := by omega
        obtain ⟨b, r, heq, hpre, hfree⟩ := ih cs (c :: acc) hl1
        refine ⟨c :: b, r, ?_, ?_, ?_⟩
        · rw [heq]; simp
        · obtain ⟨tt, htt⟩ := hpre
          exact ⟨tt, by simp [htt]⟩
        · rw [containsMarker]
          have : marker.isPrefixOf (c :: b) = false := by
            by_contra hmb
            simp only [Bool.not_eq_false] at hmb
            obtain ⟨tt, htt⟩ := hpre
            exact hp (List.isPrefixOf_iff_prefix.mpr
              ((List.isPrefixOf_iff_prefix.mp hmb).trans ⟨tt, by simp [htt]⟩))
          simp [this, hfree]

theorem textAfterFirstMarker_isSome_iff (t : Text) :
    (textAfterFirstMarker t).isSome = containsMarker t := by
  induction t with
  | nil => simp [textAfterFirstMarker, containsMarker]
  | cons c cs ih =>
    rw [textAfterFirstMarker, containsMarker]
    by_cases hp : marker.isPrefixOf (c :: cs)
    · simp [hp]
    · simp [hp, ih]

theorem textAfterFirstMarker_suffix :
    ∀ {t suffixText : Text}, textAfterFirstMarker t = some suffixText →
      suffixText <:+ t := by
  intro t
  induction t with
  | nil => intro s h; simp [textAfterFirstMarker] at h
  | cons c cs ih =>
    intro s h
    rw [textAfterFirstMarker] at h
    by_cases hp : marker.isPrefixOf (c :: cs)
    · simp only [hp, if_true] at h
      injection h with h
      exact h ▸ List.drop_suffix _ _
    · simp only [hp, if_false] at h
      exact (ih h).trans (List.suffix_cons c cs)

theorem splitMarker_after_first :
    ∀ (f : Nat) (t acc suffixText : Text), t.length ≤ f →
      textAfterFirstMarker t = some suffixText →
      ∃ b, splitMarkerF f t acc = b :: splitMarker suffixText := by
  intro f
  induction f with
  | zero =>
    intro t acc s h1 h2
    have hx : t = [] := List.eq_nil_of_length_eq_zero (Nat.le_zero.mp h1)
    subst hx
    simp [textAfterFirstMarker] at h2
  | succ f ih =>
    intro t acc s h1 h2
    match t with
    | [] => simp [textAfterFirstMarker] at h2
    | c :: cs =>
      rw [textAfterFirstMarker] at h2
      rw [splitMarkerF]
      by_cases hp : marker.isPrefixOf (c :: cs)
      · simp only [hp, if_true] at h2 ⊢
        injection h2 with h2
        subst h2
        refine ⟨acc.reverse, ?_⟩
        congr 1
        apply splitMarkerF_congr
        · simp only [List.length_drop, List.length_cons] at *
          have hm : 1 ≤ marker.length := by decide
          omega
        · exact Nat.le_refl _
      · simp only [hp, if_false] at h2 ⊢
        have hcs := List.length_cons c cs
        have hl1 : cs.length ≤ f := by omega
        exact ih cs (c :: acc) s hl1 h2

/-- When the marker occurs, the parser's restricted section is the
marker-free initial segment of the text after the FIRST occurrence of
the marker: `parts[1]` of the split. -/
theorem parse_marker_case (t : Text) (h : containsMarker t = true) :
    ∃ suffixText b sec r,
      textAfterFirstMarker t = some suffixText ∧
      splitMarker t = b :: sec :: r ∧
      sec <+: suffixText ∧ containsMarker sec = false ∧
      parse_ranking_from_text t = parseSection sec := by
  have hs : (textAfterFirstMarker t).isSome = true := by
    rw [textAfterFirstMarker_isSome_iff, h]
  obtain ⟨suffixText, hsuf⟩ := Option.isSome_iff_exists.mp hs
  obtain ⟨b, hb⟩ :=
    splitMarker_after_first t.length t [] suffixText (Nat.le_refl _) hsuf
  obtain ⟨sec, r, hsec, hpre, hfree⟩ :=
    splitMarkerF_head suffixText.length suffixText [] (Nat.le_refl _)
  rw [List.reverse_nil, List.nil_append] at hsec
  have hsplit : splitMarker t = b :: sec :: r := by
    rw [splitMarker, hb, splitMarker, hsec]
  refine ⟨suffixText, b, sec, r, hsuf, hsplit, hpre, hfree, ?_⟩
  rw [parse_ranking_from_text, parseSection]
  simp only [h, if_true, hsplit]
  simp

/-- **C5.** The parser's search priority: with no marker, bare
`Response <letter>` occurrences of the whole text in appearance order;
with the marker, the restricted section `parts[1]` is scanned, numbered
matches winning over bare ones (`parseSection`); and every returned
label occurs verbatim in the input text (no fabrication). -/
theorem claim5_parser_priority (t : Text) :
    (containsMarker t = false → parse_ranking_from_text t = findallBare t)
    ∧ (containsMarker t = true →
        parse_ranking_from_text t = parseSection ((splitMarker t).getD 1 []))
    ∧ (∀ l ∈ parse_ranking_from_text t, l <:+: t) := by
  refine ⟨?_, ?_, ?_⟩
  · intro h
    rw [parse_ranking_from_text]
    simp [h]
  · intro h
    obtain ⟨suffixText, b, sec, r, _, hsplit, _, _, hparse⟩ :=
      parse_marker_case t h
    rw [hparse, hsplit]
    simp [List.getD]
  · intro l hl
    by_cases h : containsMarker t = true
    · obtain ⟨suffixText, b, sec, r, hsuf, _, hpre, _, hparse⟩ :=
        parse_marker_case t h
      have hsecinf : sec <:+: t :=
        (hpre.isInfix).trans (textAfterFirstMarker_suffix hsuf).isInfix
      rw [hparse, parseSection] at hl
      split at hl
      · obtain ⟨nm, hnm, hnml⟩ := List.mem_map.mp hl
        exact (hnml ▸ (searchBare_isInfix nm).trans
          ((findallNumbered_isInfix sec nm hnm).trans hsecinf))
      · exact (findallBare_isInfix sec l hl).trans hsecinf
    · rw [Bool.not_eq_true] at h
      rw [parse_ranking_from_text] at hl
      simp only [h, Bool.false_eq_true, if_false] at hl
      exact findallBare_isInfix t l hl

/-- Witness for C5: the marker case at a concrete, well-formed text. -/
theorem claim5_witness :
    parse_ranking_from_text "blah\nFINAL RANKING:\n1. Response B\n2. Response A".data
      = parseSection
          ((splitMarker "blah\nFINAL RANKING:\n1. Response B\n2. Response A".data).getD 1 []) :=
  (claim5_parser_priority
    "blah\nFINAL RANKING:\n1. Response B\n2. Response A".data).2.1 (by decide)

/-- **C1 (counterexample).** With the marker occurring twice, the code
scans only the text between the first and the second occurrence
(`parts[1]` of the split), NOT the entire suffix after the first
occurrence: it misses `Response B`, which the claim-side
entire-suffix parser returns. -/
theorem claim1_counterexample :
    parse_ranking_from_text
        "FINAL RANKING: 1. Response A FINAL RANKING: 1. Response B".data
      = ["Response A".data]
    ∧ parse_ranking_entire_suffix
        "FINAL RANKING: 1. Response A FINAL RANKING: 1. Response B".data
      = ["Response A".data, "Response B".data] := by
  constructor <;> decide

/-- **C1 (amended).** When the marker occurs (in particular two or more
times), the parser scans only the marker-free initial segment of the
text after the first occurrence — the text strictly between the first
occurrence and the next one (or the end) — and returns the labels
extracted from that segment, numbered matches first. -/
theorem claim1_between_markers (t suffixText : Text)
    (h : textAfterFirstMarker t = some suffixText) :
    ∃ sec r, splitMarker suffixText = sec :: r ∧
      sec <+: suffixText ∧ containsMarker sec = false ∧
      parse_ranking_from_text t = parseSection sec := by
  have hc : containsMarker t = true := by
    rw [← textAfterFirstMarker_isSome_iff, h]
    rfl
  obtain ⟨suffixText', b, sec, r, hsuf, hsplit, hpre, hfree, hparse⟩ :=
    parse_marker_case t hc
  rw [h] at hsuf
  injection hsuf with hv
  subst hv
  refine ⟨sec, r, ?_, hpre, hfree, hparse⟩
  obtain ⟨b2, hb2⟩ :=
    splitMarker_after_first t.length t [] suffixText (Nat.le_refl _) h
  have hsplit2 : splitMarker t = b2 :: splitMarker suffixText := hb2
  rw [hsplit2] at hsplit
  exact (List.cons_eq_cons.mp hsplit).2

/-- Witness for C1's amended theorem at a concrete input with two
markers. -/
theorem claim1_witness :
    textAfterFirstMarker
        "FINAL RANKING: 1. Response A FINAL RANKING: 1. Response B".data
      = some " 1. Response A FINAL RANKING: 1. Response B".data
    ∧ ∃ sec r,
        splitMarker " 1. Response A FINAL RANKING: 1. Response B".data
          = sec :: r ∧
        sec <+: " 1. Response A FINAL RANKING: 1. Response B".data ∧
        containsMarker sec = false ∧
        parse_ranking_from_text
            "FINAL RANKING: 1. Response A FINAL RANKING: 1. Response B".data
          = parseSection sec :=
  ⟨by decide,
   claim1_between_markers
     "FINAL RANKING: 1. Response A FINAL RANKING: 1. Response B".data
     " 1. Response A FINAL RANKING: 1. Response B".data (by decide)⟩

/-! ### Title summarizer (C4, C8) -/

/-- **C4 (counterexample).** A successful title call whose returned text
is empty makes the summarizer return the empty title, not the fixed
default `"새 대화"` — the claim's "or the returned result text is empty"
branch does not hold on the code. -/
theorem claim4_counterexample :
    generate_conversation_title (fun _ _ => some ⟨"".data, none⟩) "q".data
      = "".data
    ∧ ¬ generate_conversation_title (fun _ _ => some ⟨"".data, none⟩) "q".data
        = DEFAULT_TITLE := by
  constructor <;> decide

/-- **C4 (amended).** On gateway failure the summarizer returns the
fixed default title; on success it returns the stripped (possibly empty)
text — in particular an empty returned text yields the empty title. -/
theorem claim4_default_title (g : Gateway) (q : Text) :
    (g "google/gemini-2.5-flash".data [userMsg (title_prompt q)] = none →
      generate_conversation_title g q = DEFAULT_TITLE)
    ∧ (∀ r, g "google/gemini-2.5-flash".data [userMsg (title_prompt q)] = some r →
        r.content = [] → generate_conversation_title g q = []) := by
  constructor
  · intro h
    simp [generate_conversation_title, h]
  · intro r h hc
    simp [generate_conversation_title, h, hc, cleanTitle, stripEnds]

/-- Witness for C4's amended theorem: the failing gateway. -/
theorem claim4_witness :
    generate_conversation_title (fun _ _ => none) "q".data = DEFAULT_TITLE :=
  (claim4_default_title (fun _ _ => none) "q".data).1 rfl

/-- **C8.** After stripping whitespace and quote characters, a title
longer than 50 characters is truncated to its first 47 characters plus
the 3-character ellipsis (total exactly 50); a title of at most 50
characters is returned unchanged. -/
theorem claim8_truncation (g : Gateway) (q : Text) (r : GatewayResult)
    (h : g "google/gemini-2.5-flash".data [userMsg (title_prompt q)] = some r) :
    (50 < (cleanTitle r.content).length →
      generate_conversation_title g q
          = (cleanTitle r.content).take 47 ++ "...".data
      ∧ (generate_conversation_title g q).length = 50)
    ∧ ((cleanTitle r.content).length ≤ 50 →
      generate_conversation_title g q = cleanTitle r.content) := by
  constructor
  · intro hlen
    have heq : generate_conversation_title g q
        = (cleanTitle r.content).take 47 ++ "...".data := by
      simp only [generate_conversation_title, h]
      simp [hlen]
    refine ⟨heq, ?_⟩
    rw [heq]
    simp only [List.length_append, List.length_take]
    have h47 : 47 ≤ (cleanTitle r.content).length := by omega
    simp [Nat.min_eq_left h47]
  · intro hlen
    simp only [generate_conversation_title, h]
    simp [Nat.not_lt.mpr hlen]

/-- Witness for C8 at a 55-character generated title: 47 characters plus
the ellipsis, 50 in total. -/
theorem claim8_witness :
    50 < (cleanTitle "aaaaaaaaaaaaaaaaaaaaaaaaaaaaaaaaaaaaaaaaaaaaaaaaaaaaaaa".data).length
    ∧ (generate_conversation_title
          (fun _ _ => some ⟨"aaaaaaaaaaaaaaaaaaaaaaaaaaaaaaaaaaaaaaaaaaaaaaaaaaaaaaa".data, none⟩)
          "q".data
        = (cleanTitle "aaaaaaaaaaaaaaaaaaaaaaaaaaaaaaaaaaaaaaaaaaaaaaaaaaaaaaa".data).take 47
            ++ "...".data
      ∧ (generate_conversation_title
          (fun _ _ => some ⟨"aaaaaaaaaaaaaaaaaaaaaaaaaaaaaaaaaaaaaaaaaaaaaaaaaaaaaaa".data, none⟩)
          "q".data).length = 50) :=
  ⟨by decide,
   (claim8_truncation
     (fun _ _ => some ⟨"aaaaaaaaaaaaaaaaaaaaaaaaaaaaaaaaaaaaaaaaaaaaaaaaaaaaaaa".data, none⟩)
     "q".data _ rfl).1 (by decide)⟩

/-! ### Fan-out and anonymizer (C6, C7, C10) -/

theorem qmp_counts (g : Gateway) (messages : List Message) :
    ∀ models : List Text,
      ((query_models_parallel g models messages).filter
          (fun p => p.2.isSome)).length
        + (models.filter (fun m => (g m messages).isNone)).length
      = models.length := by
  intro models
  induction models with
  | nil => rfl
  | cons m ms ih =>
    cases hg : g m messages <;>
      simp [query_models_parallel, List.filter_cons, hg] at ih ⊢ <;>
      omega

/-- **C6.** Fan-out over a roster of distinct models returns one entry
per requested model, in request order; an entry is absent exactly when
its own call failed; and with `k` failing calls out of `N` there are
exactly `N − k` present values. -/
theorem claim6_fanout_complete (g : Gateway) (models : List Text)
    (messages : List Message) (hd : models.Nodup) :
    ((query_models_parallel g models messages).map Prod.fst = models)
    ∧ (∀ m r, (m, r) ∈ query_models_parallel g models messages →
        (r = none ↔ g m messages = none))
    ∧ ((query_models_parallel g models messages).filter
          (fun p => p.2.isSome)).length
        = models.length
          - (models.filter (fun m => (g m messages).isNone)).length := by
  refine ⟨?_, ?_, ?_⟩
  · rw [query_models_parallel, List.map_map]
    have hid : (Prod.fst ∘ fun m => (m, g m messages)) = id := rfl
    rw [hid, List.map_id]
  · intro m r hmr
    obtain ⟨m', _, hm'⟩ := List.mem_map.mp hmr
    obtain ⟨h1, h2⟩ := Prod.mk.injEq .. ▸ hm'
    rw [← h1, ← h2]
  · have := qmp_counts g messages models
    omega

/-- Witness for C6 with a two-model roster, one call failing. -/
theorem claim6_witness :
    ("a".data :: ["b".data]).Nodup
    ∧ (((query_models_parallel
          (fun m _ => if m = "a".data then none else some ⟨"ok".data, none⟩)
          ("a".data :: ["b".data]) []).map Prod.fst = "a".data :: ["b".data])
      ∧ (∀ m r, (m, r) ∈ query_models_parallel
            (fun m _ => if m = "a".data then none else some ⟨"ok".data, none⟩)
            ("a".data :: ["b".data]) [] →
          (r = none ↔ (if m = "a".data then none
            else some (⟨"ok".data, none⟩ : GatewayResult)) = none))
      ∧ ((query_models_parallel
            (fun m _ => if m = "a".data then none else some ⟨"ok".data, none⟩)
            ("a".data :: ["b".data]) []).filter
              (fun p => p.2.isSome)).length
          = ("a".data :: ["b".data]).length
            - (("a".data :: ["b".data]).filter
                (fun m => ((if m = "a".data then none
                  else some (⟨"ok".data, none⟩ : GatewayResult)) : Option GatewayResult).isNone)).length) :=
  ⟨by decide,
   claim6_fanout_complete
     (fun m _ => if m = "a".data then none else some ⟨"ok".data, none⟩)
     ("a".data :: ["b".data]) [] (by decide)⟩

theorem labelsList_length (n : Nat) : (labelsList n).length = n := by
  simp [labelsList]

theorem labelsList_getElem (n i : Nat) (h : i < n) :
    (labelsList n)[i]? = some (Char.ofNat (65 + i)) := by
  simp [labelsList, List.getElem?_range h]

theorem labelsList_nodup (n : Nat) (h : n ≤ 26) : (labelsList n).Nodup := by
  have htake : labelsList n = (labelsList 26).take n := by
    rw [labelsList, labelsList, ← List.map_take, List.take_range,
      Nat.min_eq_left h]
  rw [htake]
  exact (List.take_sublist n _).nodup (by decide)

theorem label_to_model_length (rs : List AnswerRecord) :
    (label_to_model rs).length = rs.length := by
  simp [label_to_model, labelsList_length]

theorem label_to_model_getElem (rs : List AnswerRecord) (i : Nat)
    (rec : AnswerRecord) (h : rs[i]? = some rec) :
    (label_to_model rs)[i]?
      = some ("Response ".data ++ [Char.ofNat (65 + i)], rec.model) := by
  have hi : i < rs.length := by
    by_contra hlt
    rw [List.getElem?_eq_none (Nat.le_of_not_lt hlt)] at h
    exact absurd h (by simp)
  rw [label_to_model, List.getElem?_map]
  have hz : ((labelsList rs.length).zip rs)[i]?
      = some (Char.ofNat (65 + i), rec) := by
    rw [List.getElem?_zip_eq_some]
    exact ⟨labelsList_getElem rs.length i hi, h⟩
  rw [hz]
  rfl

theorem label_to_model_keys (rs : List AnswerRecord) :
    (label_to_model rs).map Prod.fst
      = (labelsList rs.length).map (fun l => "Response ".data ++ [l]) := by
  rw [label_to_model, List.map_map]
  have : ((labelsList rs.length).zip rs).map
        (Prod.fst ∘ fun p => ("Response ".data ++ [p.1], p.2.model))
      = ((labelsList rs.length).zip rs).map
        ((fun l => "Response ".data ++ [l]) ∘ Prod.fst) := rfl
  rw [this, ← List.map_map, List.map_fst_zip]
  rw [labelsList_length]

theorem label_to_model_values (rs : List AnswerRecord) :
    (label_to_model rs).map Prod.snd = rs.map (fun r => r.model) := by
  rw [label_to_model, List.map_map]
  have : ((labelsList rs.length).zip rs).map
        (Prod.snd ∘ fun p => ("Response ".data ++ [p.1], p.2.model))
      = ((labelsList rs.length).zip rs).map
        ((fun r => r.model) ∘ Prod.snd) := rfl
  rw [this, ← List.map_map, List.map_snd_zip]
  rw [labelsList_length]

/-- **C7.** The anonymizer over `m ≤ 26` records with distinct models:
the label map has exactly `m` entries; the `i`-th entry pairs
`"Response <chr(65+i)>"` with the `i`-th record's model; keys and
models are each pairwise distinct; and the rendered block is the
`"Response <label>:\n<text>"` entries in input order joined by blank
lines. -/
theorem claim7_anonymizer (rs : List AnswerRecord)
    (hn : rs.length ≤ 26) (hd : (rs.map (fun r => r.model)).Nodup) :
    (label_to_model rs).length = rs.length
    ∧ (∀ i rec, rs[i]? = some rec →
        (label_to_model rs)[i]?
          = some ("Response ".data ++ [Char.ofNat (65 + i)], rec.model))
    ∧ ((label_to_model rs).map Prod.fst).Nodup
    ∧ ((label_to_model rs).map Prod.snd).Nodup
    ∧ responses_text rs
      = List.intercalate "\n\n".data
          (((labelsList rs.length).zip rs).map
            (fun p => "Response ".data ++ [p.1] ++ ":\n".data ++ p.2.response)) := by
  refine ⟨label_to_model_length rs, label_to_model_getElem rs, ?_, ?_, rfl⟩
  · rw [label_to_model_keys]
    refine (labelsList_nodup rs.length hn).map ?_
    intro a b hab
    have h2 := List.append_cancel_left hab
    exact (List.cons_eq_cons.mp h2).1
  · rw [label_to_model_values]
    exact hd

/-- Witness for C7 at a concrete two-record stage-1 list. -/
theorem claim7_witness :
    ([(⟨"mX".data, "4".data⟩ : AnswerRecord), ⟨"mY".data, "It is 4.".data⟩].map
        (fun r => r.model)).Nodup
    ∧ ((label_to_model [⟨"mX".data, "4".data⟩, ⟨"mY".data, "It is 4.".data⟩]).length = 2
      ∧ ((label_to_model [⟨"mX".data, "4".data⟩, ⟨"mY".data, "It is 4.".data⟩]).map
          Prod.fst).Nodup) :=
  ⟨by decide,
   ⟨(claim7_anonymizer [⟨"mX".data, "4".data⟩, ⟨"mY".data, "It is 4.".data⟩]
       (by decide) (by decide)).1,
    (claim7_anonymizer [⟨"mX".data, "4".data⟩, ⟨"mY".data, "It is 4.".data⟩]
       (by decide) (by decide)).2.2.1⟩⟩

theorem stage1_models_order (g : Gateway) (q : Text) :
    (stage1_collect_responses g q).map (fun r => r.model)
      = COUNCIL_MODELS.filter (fun m => (g m [userMsg q]).isSome) := by
  simp only [stage1_collect_responses]
  generalize COUNCIL_MODELS = ms
  induction ms with
  | nil => rfl
  | cons m ms ih =>
    cases hg : g m [userMsg q] <;>
      simp [query_models_parallel, List.filter_cons, hg] at ih ⊢ <;>
      simpa [query_models_parallel] using ih

/-- **C10.** The stage-1 result list preserves the configured roster
order restricted to the models whose call succeeded, and anonymization
labels are then assigned to those surviving models in that roster order:
the label map's values are exactly the surviving roster in order, the
`i`-th surviving record receiving letter `chr(65+i)`. -/
theorem claim10_roster_order (g : Gateway) (q : Text) :
    (stage1_collect_responses g q).map (fun r => r.model)
      = COUNCIL_MODELS.filter (fun m => (g m [userMsg q]).isSome)
    ∧ (label_to_model (stage1_collect_responses g q)).map Prod.snd
      = COUNCIL_MODELS.filter (fun m => (g m [userMsg q]).isSome)
    ∧ (∀ i rec, (stage1_collect_responses g q)[i]? = some rec →
        (label_to_model (stage1_collect_responses g q))[i]?
          = some ("Response ".data ++ [Char.ofNat (65 + i)], rec.model)) := by
  have h1 := stage1_models_order g q
  exact ⟨h1, by rw [label_to_model_values, h1],
    label_to_model_getElem (stage1_collect_responses g q)⟩

/-- Witness for C10: a gateway failing exactly on the roster's second
model; the second survivor (third roster model) gets letter B. -/
theorem claim10_witness :
    ((stage1_collect_responses
        (fun m _ => if m = "openrouter/bert-nebulon-alpha".data then none
          else some ⟨"ok".data, none⟩) "q".data).map (fun r => r.model)
      = COUNCIL_MODELS.filter (fun m =>
          ((if m = "openrouter/bert-nebulon-alpha".data then none
            else some (⟨"ok".data, none⟩ : GatewayResult)) : Option GatewayResult).isSome))
    ∧ (label_to_model (stage1_collect_responses
        (fun m _ => if m = "openrouter/bert-nebulon-alpha".data then none
          else some ⟨"ok".data, none⟩) "q".data))[1]?
      = some ("Response ".data ++ [Char.ofNat (65 + 1)],
          "x-ai/grok-4.1-fast:free".data) :=
  ⟨(claim10_roster_order
      (fun m _ => if m = "openrouter/bert-nebulon-alpha".data then none
        else some ⟨"ok".data, none⟩) "q".data).1,
   (claim10_roster_order
      (fun m _ => if m = "openrouter/bert-nebulon-alpha".data then none
        else some ⟨"ok".data, none⟩) "q".data).2.2 1
      ⟨"x-ai/grok-4.1-fast:free".data, "ok".data⟩ (by decide)⟩

/-! ### Total stage-1 failure (C3) -/

theorem stage1_all_none (g : Gateway) (msgs : List Message) :
    ∀ ms : List Text, (∀ m ∈ ms, g m msgs = none) →
      (ms.map (fun m => (m, g m msgs))).filterMap
          (fun p => p.2.map (fun r => (⟨p.1, r.content⟩ : AnswerRecord)))
        = [] := by
  intro ms h
  induction ms with
  | nil => rfl
  | cons m rest ih =>
    have hm := h m (List.mem_cons_self m rest)
    simp only [List.map_cons, List.filterMap_cons, hm, Option.map_none']
    exact ih (fun x hx => h x (List.mem_cons_of_mem m hx))

/-- **C3.** If every roster model fails at stage 1, the pipeline returns
the empty stage-1 and stage-2 lists, the fixed-text sentinel synthesis
result and empty metadata, and performs no gateway calls beyond the
stage-1 fan-out (no stage-2 fan-out, no chairman call); being a total
function, it raises nothing. -/
theorem claim3_total_failure (g : Gateway) (q : Text)
    (h : ∀ m ∈ COUNCIL_MODELS, g m [userMsg q] = none) :
    run_full_council g q
      = ⟨[], [], ⟨"error".data, ALL_FAILED_MESSAGE⟩, none⟩
    ∧ run_full_council_calls g q
      = COUNCIL_MODELS.map (fun m => (m, [userMsg q])) := by
  have hs1 : stage1_collect_responses g q = [] := by
    simp only [stage1_collect_responses, query_models_parallel]
    exact stage1_all_none g [userMsg q] COUNCIL_MODELS h
  constructor
  · simp [run_full_council, hs1]
  · simp [run_full_council_calls, hs1]

/-- Witness for C3: the always-failing gateway. -/
theorem claim3_witness :
    (∀ m ∈ COUNCIL_MODELS,
      (fun (_ : Text) (_ : List Message) => (none : Option GatewayResult)) m
        [userMsg "hi".data] = none)
    ∧ run_full_council (fun _ _ => none) "hi".data
      = ⟨[], [], ⟨"error".data, ALL_FAILED_MESSAGE⟩, none⟩
    ∧ run_full_council_calls (fun _ _ => none) "hi".data
      = COUNCIL_MODELS.map (fun m => (m, [userMsg "hi".data])) :=
  ⟨fun _ _ => rfl,
   (claim3_total_failure (fun _ _ => none) "hi".data (fun _ _ => rfl)).1,
   (claim3_total_failure (fun _ _ => none) "hi".data (fun _ _ => rfl)).2⟩

/-! ### Stored vs re-parsed rankings (C9) -/

theorem agg_fold_congr (lmap : List (Text × Text)) :
    ∀ records : List RankingRecord,
      (∀ rec ∈ records,
        rec.parsed_ranking = parse_ranking_from_text rec.ranking) →
      ∀ acc : List (Text × List Nat),
        records.foldl (fun acc r =>
          (List.enumFrom 1 (parse_ranking_from_text r.ranking)).foldl
            (fun acc2 pl =>
              match lookupLabel lmap pl.2 with
              | some model_name => addPos acc2 model_name pl.1
              | none => acc2) acc) acc
        = records.foldl (fun acc r =>
            (List.enumFrom 1 r.parsed_ranking).foldl
              (fun acc2 pl =>
                match lookupLabel lmap pl.2 with
                | some model_name => addPos acc2 model_name pl.1
                | none => acc2) acc) acc := by
  intro records h
  induction records with
  | nil => intro acc; rfl
  | cons r rest ih =>
    intro acc
    rw [List.foldl_cons, List.foldl_cons,
      h r (List.mem_cons_self r rest)]
    exact ih (fun x hx => h x (List.mem_cons_of_mem r hx)) _

theorem calc_agg_congr (records : List RankingRecord)
    (lmap : List (Text × Text))
    (h : ∀ rec ∈ records,
      rec.parsed_ranking = parse_ranking_from_text rec.ranking) :
    calculate_aggregate_rankings records lmap
      = calculate_aggregate_rankings_parsed records lmap := by
  simp only [calculate_aggregate_rankings, calculate_aggregate_rankings_parsed]
  rw [agg_fold_congr lmap records h]

/-- **C9.** Every stage-2 record stores as `parsed_ranking` exactly the
parser applied to its raw text, and consequently the aggregator — which
re-parses the raw text instead of reading the stored field — computes
exactly what it would from the stored parsed orders. -/
theorem claim9_reparse_equiv (g : Gateway) (q : Text)
    (s1 : List AnswerRecord) :
    (∀ rec ∈ (stage2_collect_rankings g q s1).1,
        rec.parsed_ranking = parse_ranking_from_text rec.ranking)
    ∧ calculate_aggregate_rankings (stage2_collect_rankings g q s1).1
          (stage2_collect_rankings g q s1).2
      = calculate_aggregate_rankings_parsed (stage2_collect_rankings g q s1).1
          (stage2_collect_rankings g q s1).2 := by
  have hrec : ∀ rec ∈ (stage2_collect_rankings g q s1).1,
      rec.parsed_ranking = parse_ranking_from_text rec.ranking := by
    intro rec hm
    simp only [stage2_collect_rankings] at hm
    obtain ⟨p, _, hp⟩ := List.mem_filterMap.mp hm
    obtain ⟨r, _, hr⟩ := Option.map_eq_some'.mp hp
    rw [← hr]
  exact ⟨hrec, calc_agg_congr _ _ hrec⟩

/-- Witness for C9 at a concrete run (one evaluator answering, one
failing). -/
theorem claim9_witness :
    (∀ rec ∈ (stage2_collect_rankings
        (fun m _ => if m = "tngtech/tng-r1t-chimera:free".data then
          some ⟨"FINAL RANKING:\n1. Response A".data, none⟩ else none)
        "q".data [⟨"mX".data, "4".data⟩]).1,
      rec.parsed_ranking = parse_ranking_from_text rec.ranking)
    ∧ calculate_aggregate_rankings
        (stage2_collect_rankings
          (fun m _ => if m = "tngtech/tng-r1t-chimera:free".data then
            some ⟨"FINAL RANKING:\n1. Response A".data, none⟩ else none)
          "q".data [⟨"mX".data, "4".data⟩]).1
        (stage2_collect_rankings
          (fun m _ => if m = "tngtech/tng-r1t-chimera:free".data then
            some ⟨"FINAL RANKING:\n1. Response A".data, none⟩ else none)
          "q".data [⟨"mX".data, "4".data⟩]).2
      = calculate_aggregate_rankings_parsed
          (stage2_collect_rankings
            (fun m _ => if m = "tngtech/tng-r1t-chimera:free".data then
              some ⟨"FINAL RANKING:\n1. Response A".data, none⟩ else none)
            "q".data [⟨"mX".data, "4".data⟩]).1
          (stage2_collect_rankings
            (fun m _ => if m = "tngtech/tng-r1t-chimera:free".data then
              some ⟨"FINAL RANKING:\n1. Response A".data, none⟩ else none)
            "q".data [⟨"mX".data, "4".data⟩]).2 :=
  claim9_reparse_equiv
    (fun m _ => if m = "tngtech/tng-r1t-chimera:free".data then
      some ⟨"FINAL RANKING:\n1. Response A".data, none⟩ else none)
    "q".data [⟨"mX".data, "4".data⟩]

/-! ### The stable sort (C2) -/

theorem insertByAvg_eq (x : AggregateEntry) :
    ∀ l : List AggregateEntry,
      insertByAvg x l
        = l.takeWhile (fun y => decide (y.average_rank ≤ x.average_rank))
          ++ x :: l.dropWhile (fun y => decide (y.average_rank ≤ x.average_rank)) := by
  intro l
  induction l with
  | nil => rfl
  | cons y ys ih =>
    by_cases hy : y.average_rank ≤ x.average_rank
    · simp [insertByAvg, hy, List.takeWhile_cons, List.dropWhile_cons, ih]
    · simp [insertByAvg, hy, List.takeWhile_cons, List.dropWhile_cons]

theorem mem_insertByAvg (x b : AggregateEntry) :
    ∀ l : List AggregateEntry, b ∈ insertByAvg x l ↔ b = x ∨ b ∈ l := by
  intro l
  induction l with
  | nil => simp [insertByAvg]
  | cons y ys ih =>
    by_cases hy : y.average_rank ≤ x.average_rank
    · simp only [insertByAvg, hy, if_true, List.mem_cons, ih]
      tauto
    · simp only [insertByAvg, hy, if_false, List.mem_cons]

theorem sorted_insertByAvg (x : AggregateEntry) :
    ∀ l : List AggregateEntry, List.Sorted entryLE l →
      List.Sorted entryLE (insertByAvg x l) := by
  intro l
  induction l with
  | nil => intro _; simp [insertByAvg]
  | cons y ys ih =>
    intro hs
    rw [List.sorted_cons] at hs
    obtain ⟨hy, hys⟩ := hs
    rw [insertByAvg]
    by_cases hxy : y.average_rank ≤ x.average_rank
    · simp only [hxy, if_true]
      rw [List.sorted_cons]
      refine ⟨?_, ih hys⟩
      intro b hb
      rcases (mem_insertByAvg x b ys).mp hb with rfl | hb2
      · exact hxy
      · exact hy b hb2
    · simp only [hxy, if_false]
      rw [List.sorted_cons]
      refine ⟨?_, by rw [List.sorted_cons]; exact ⟨hy, hys⟩⟩
      intro b hb
      rcases List.mem_cons.mp hb with rfl | hb2
      · exact le_of_not_le hxy
      · exact (le_of_not_le hxy).trans (hy b hb2)

theorem sorted_sortByAvg_aux :
    ∀ (l acc : List AggregateEntry), List.Sorted entryLE acc →
      List.Sorted entryLE (l.foldl (fun a x => insertByAvg x a) acc) := by
  intro l
  induction l with
  | nil => intro acc h; exact h
  | cons x xs ih => intro acc h; exact ih _ (sorted_insertByAvg x acc h)

theorem sorted_sortByAvg (l : List AggregateEntry) :
    List.Sorted entryLE (sortByAvg l) :=
  sorted_sortByAvg_aux l [] (by simp)

theorem dropWhile_avg_gt (x : AggregateEntry) :
    ∀ l : List AggregateEntry, List.Sorted entryLE l →
      ∀ z ∈ l.dropWhile (fun y => decide (y.average_rank ≤ x.average_rank)),
        x.average_rank < z.average_rank := by
  intro l
  induction l with
  | nil => intro _ z hz; simp at hz
  | cons y ys ih =>
    intro hs z hz
    rw [List.sorted_cons] at hs
    rw [List.dropWhile_cons] at hz
    by_cases hy : y.average_rank ≤ x.average_rank
    · simp only [hy, decide_True, if_true] at hz
      exact ih hs.2 z hz
    · simp only [hy, decide_False, if_false] at hz
      rcases List.mem_cons.mp (by simpa using hz) with rfl | hz2
      · exact lt_of_not_le hy
      · exact (lt_of_not_le hy).trans_le (hs.1 z hz2)

theorem filter_insertByAvg (x : AggregateEntry) (q : ℚ)
    (l : List AggregateEntry) (hs : List.Sorted entryLE l) :
    (insertByAvg x l).filter (fun e => decide (e.average_rank = q))
      = if x.average_rank = q then
          l.filter (fun e => decide (e.average_rank = q)) ++ [x]
        else l.filter (fun e => decide (e.average_rank = q)) := by
  rw [insertByAvg_eq, List.filter_append, List.filter_cons]
  by_cases hx : x.average_rank = q
  · have hdw : (l.dropWhile (fun y => decide (y.average_rank ≤ x.average_rank))).filter
        (fun e => decide (e.average_rank = q)) = [] := by
      rw [List.filter_eq_nil_iff]
      intro e he
      have hgt := dropWhile_avg_gt x l hs e he
      simp only [decide_eq_true_eq]
      rw [← hx]
      exact ne_of_gt hgt
    rw [if_pos hx, if_pos (by simp [hx] : decide (x.average_rank = q) = true), hdw]
    conv_rhs =>
      rw [← List.takeWhile_append_dropWhile
        (fun y => decide (y.average_rank ≤ x.average_rank)) l]
    rw [List.filter_append, hdw]
    simp
  · rw [if_neg hx,
      if_neg (by simp [hx] : ¬ decide (x.average_rank = q) = true)]
    conv_rhs =>
      rw [← List.takeWhile_append_dropWhile
        (fun y => decide (y.average_rank ≤ x.average_rank)) l]
    rw [List.filter_append]

theorem filter_sortByAvg_aux (q : ℚ) :
    ∀ (l acc : List AggregateEntry), List.Sorted entryLE acc →
      (l.foldl (fun a x => insertByAvg x a) acc).filter
          (fun e => decide (e.average_rank = q))
        = acc.filter (fun e => decide (e.average_rank = q))
          ++ l.filter (fun e => decide (e.average_rank = q)) := by
  intro l
  induction l with
  | nil => intro acc _; simp
  | cons x xs ih =>
    intro acc h
    rw [List.foldl_cons, ih _ (sorted_insertByAvg x acc h),
      filter_insertByAvg x q acc h, List.filter_cons]
    by_cases hx : x.average_rank = q <;>
      simp [hx, List.append_assoc]

theorem filter_sortByAvg (q : ℚ) (l : List AggregateEntry) :
    (sortByAvg l).filter (fun e => decide (e.average_rank = q))
      = l.filter (fun e => decide (e.average_rank = q)) := by
  have h := filter_sortByAvg_aux q l [] (by simp)
  simpa [sortByAvg] using h

/-! ### Grouping positions by model (C2) -/

theorem positionsFor_nil (m : Text) : positionsFor [] m = [] := rfl

theorem positionsFor_cons (p0 : Text × Nat) (rest : List (Text × Nat))
    (m : Text) :
    positionsFor (p0 :: rest) m
      = if p0.1 = m then p0.2 :: positionsFor rest m
        else positionsFor rest m := by
  rw [positionsFor, List.filterMap_cons]
  by_cases h : p0.1 = m <;> simp [h, positionsFor]

theorem positionsFor_ne_nil (pairs : List (Text × Nat)) (m : Text) :
    m ∈ pairs.map Prod.fst ↔ ¬ positionsFor pairs m = [] := by
  induction pairs with
  | nil => simp [positionsFor]
  | cons p rest ih =>
    rw [positionsFor_cons, List.map_cons, List.mem_cons]
    by_cases h : p.1 = m
    · simp [h]
    · have h2 : ¬ m = p.1 := fun hh => h hh.symm
      simp [h, h2, ih]

theorem addPos_of_mem :
    ∀ (mp : List (Text × List Nat)) (m : Text) (p : Nat),
      (mp.map Prod.fst).Nodup → m ∈ mp.map Prod.fst →
      addPos mp m p
        = mp.map (fun e => if e.1 = m then (e.1, e.2 ++ [p]) else e) := by
  intro mp
  induction mp with
  | nil => intro m p _ hm; simp at hm
  | cons e rest ih =>
    intro m p hnd hm
    rw [List.map_cons, List.nodup_cons] at hnd
    by_cases he : e.1 = m
    · rw [addPos]
      rw [if_pos he, List.map_cons, if_pos he]
      congr 1
      have hrest : ∀ e' ∈ rest, (if e'.1 = m then (e'.1, e'.2 ++ [p]) else e') = e' := by
        intro e' he'
        have hne : ¬ e'.1 = m := by
          intro hh
          exact hnd.1 (he ▸ hh ▸ List.mem_map_of_mem Prod.fst he')
        rw [if_neg hne]
      have hmapc : rest.map
          (fun e' => if e'.1 = m then (e'.1, e'.2 ++ [p]) else e') = rest := by
        have h0 := List.map_congr_left hrest
        simpa using h0
      exact hmapc.symm
    · rw [addPos, if_neg he, List.map_cons, if_neg he]
      congr 1
      rcases List.mem_cons.mp (List.map_cons Prod.fst e rest ▸ hm) with hm1 | hm2
      · exact absurd hm1.symm he
      · exact ih m p hnd.2 hm2

theorem addPos_of_not_mem :
    ∀ (mp : List (Text × List Nat)) (m : Text) (p : Nat),
      ¬ m ∈ mp.map Prod.fst →
      addPos mp m p = mp ++ [(m, [p])] := by
  intro mp
  induction mp with
  | nil => intro m p _; rfl
  | cons e rest ih =>
    intro m p hm
    simp only [List.map_cons, List.mem_cons, not_or] at hm
    rw [addPos, if_neg (fun hh => hm.1 hh.symm), ih m p hm.2]
    rfl

theorem addPos_keys_of_mem (mp : List (Text × List Nat)) (m : Text) (p : Nat)
    (hnd : (mp.map Prod.fst).Nodup) (hm : m ∈ mp.map Prod.fst) :
    (addPos mp m p).map Prod.fst = mp.map Prod.fst := by
  rw [addPos_of_mem mp m p hnd hm, List.map_map]
  apply List.map_congr_left
  intro e _
  by_cases h : e.1 = m <;> simp [h]

theorem addPos_keys_of_not_mem (mp : List (Text × List Nat)) (m : Text)
    (p : Nat) (hm : ¬ m ∈ mp.map Prod.fst) :
    (addPos mp m p).map Prod.fst = mp.map Prod.fst ++ [m] := by
  rw [addPos_of_not_mem mp m p hm]
  simp

theorem mem_firstOccur :
    ∀ (l : List Text) (m : Text), m ∈ firstOccur l → m ∈ l := by
  intro l
  induction l with
  | nil => intro m h; simp [firstOccur] at h
  | cons x xs ih =>
    intro m h
    rw [firstOccur] at h
    rcases List.mem_cons.mp h with rfl | h2
    · exact List.mem_cons_self _ _
    · exact List.mem_cons_of_mem _ (ih m (List.mem_filter.mp h2).1)

theorem firstOccur_filter (p : Text → Bool) :
    ∀ l : List Text, firstOccur (l.filter p) = (firstOccur l).filter p := by
  intro l
  induction l with
  | nil => rfl
  | cons x xs ih =>
    rw [List.filter_cons, firstOccur]
    by_cases hp : p x = true
    · rw [if_pos hp, firstOccur, ih, List.filter_cons, if_pos hp,
        List.filter_filter, List.filter_filter]
      congr 1
      apply List.filter_congr
      intro a _
      exact Bool.and_comm _ _
    · rw [if_neg hp, ih, List.filter_cons, if_neg hp, List.filter_filter]
      symm
      apply List.filter_congr
      intro a _
      by_cases ha : a = x
      · subst ha
        simp [hp]
      · simp [ha]

theorem foldl_addPos_groupBy :
    ∀ (pairs : List (Text × Nat)) (acc : List (Text × List Nat)),
      (acc.map Prod.fst).Nodup →
      pairs.foldl (fun a p => addPos a p.1 p.2) acc
        = acc.map (fun e => (e.1, e.2 ++ positionsFor pairs e.1))
          ++ (firstOccur ((pairs.map Prod.fst).filter
                (fun m => decide (¬ m ∈ acc.map Prod.fst)))).map
              (fun m => (m, positionsFor pairs m)) := by
  intro pairs
  induction pairs with
  | nil =>
    intro acc _
    simp [positionsFor, firstOccur]
  | cons p0 rest ih =>
    intro acc hnd
    rw [List.foldl_cons]
    by_cases hmem : p0.1 ∈ acc.map Prod.fst
    · have hkeys := addPos_keys_of_mem acc p0.1 p0.2 hnd hmem
      rw [ih (addPos acc p0.1 p0.2) (hkeys ▸ hnd), hkeys,
        addPos_of_mem acc p0.1 p0.2 hnd hmem]
      congr 1
      · rw [List.map_map]
        apply List.map_congr_left
        intro e _
        by_cases he : e.1 = p0.1
        · have : p0.1 = e.1 := he.symm
          simp only [Function.comp_apply, if_pos he, positionsFor_cons,
            if_pos this]
          simp
        · have : ¬ p0.1 = e.1 := fun hh => he hh.symm
          simp only [Function.comp_apply, if_neg he, positionsFor_cons,
            if_neg this]
      · rw [List.map_cons, List.filter_cons,
          if_neg (by simp [hmem] : ¬ decide (¬ p0.1 ∈ acc.map Prod.fst) = true)]
        apply List.map_congr_left
        intro m hm
        have hmf := List.mem_filter.mp (mem_firstOccur _ m hm)
        have hnotin : ¬ m ∈ acc.map Prod.fst := by
          simpa using hmf.2
        have hne : ¬ p0.1 = m := fun hh => hnotin (hh ▸ hmem)
        rw [positionsFor_cons, if_neg hne]
    · have hkeys := addPos_keys_of_not_mem acc p0.1 p0.2 hmem
      have hnd2 : ((addPos acc p0.1 p0.2).map Prod.fst).Nodup := by
        rw [hkeys, List.nodup_append]
        exact ⟨hnd, List.nodup_singleton p0.1,
          by simpa [List.disjoint_singleton] using hmem⟩
      rw [ih (addPos acc p0.1 p0.2) hnd2, hkeys,
        addPos_of_not_mem acc p0.1 p0.2 hmem]
      have hA : acc.map (fun e => (e.1, e.2 ++ positionsFor (p0 :: rest) e.1))
          = acc.map (fun e => (e.1, e.2 ++ positionsFor rest e.1)) := by
        apply List.map_congr_left
        intro e he
        have hne : ¬ p0.1 = e.1 := by
          intro hh
          exact hmem (hh ▸ List.mem_map_of_mem Prod.fst he)
        rw [positionsFor_cons, if_neg hne]
      have hpred : (fun m => decide (¬ m ∈ acc.map Prod.fst ++ [p0.1]))
          = fun m => decide (¬ m = p0.1) && decide (¬ m ∈ acc.map Prod.fst) := by
        funext m
        by_cases h1 : m = p0.1 <;> by_cases h2 : m ∈ acc.map Prod.fst <;>
          simp [h1, h2]
      have hT : (rest.map Prod.fst).filter
            (fun m => decide (¬ m ∈ acc.map Prod.fst ++ [p0.1]))
          = ((rest.map Prod.fst).filter
              (fun m => decide (¬ m ∈ acc.map Prod.fst))).filter
              (fun m => decide (¬ m = p0.1)) := by
        rw [hpred, ← List.filter_filter]
      have hhead : positionsFor (p0 :: rest) p0.1
          = p0.2 :: positionsFor rest p0.1 := by
        rw [positionsFor_cons, if_pos rfl]
      have hRfilter : ((p0 :: rest).map Prod.fst).filter
            (fun m => decide (¬ m ∈ acc.map Prod.fst))
          = p0.1 :: (rest.map Prod.fst).filter
              (fun m => decide (¬ m ∈ acc.map Prod.fst)) := by
        rw [List.map_cons, List.filter_cons, if_pos (by simpa using hmem)]
      have hTmap :
          ((firstOccur ((rest.map Prod.fst).filter
              (fun m => decide (¬ m ∈ acc.map Prod.fst)))).filter
            (fun m => decide (¬ m = p0.1))).map
              (fun m => (m, positionsFor (p0 :: rest) m))
            = ((firstOccur ((rest.map Prod.fst).filter
                (fun m => decide (¬ m ∈ acc.map Prod.fst)))).filter
              (fun m => decide (¬ m = p0.1))).map
                (fun m => (m, positionsFor rest m)) := by
        apply List.map_congr_left
        intro m hm
        have hmne : ¬ p0.1 = m := by
          have h3 := List.mem_filter.mp hm
          intro hh
          simp [← hh] at h3
        rw [positionsFor_cons, if_neg hmne]
      rw [hA, hRfilter, firstOccur, List.map_cons, hhead, hTmap, hT,
        firstOccur_filter, List.map_append, List.map_singleton]
      simp

theorem foldl_resolve (lmap : List (Text × Text)) :
    ∀ (pls : List (Nat × Text)) (acc : List (Text × List Nat)),
      pls.foldl (fun acc2 pl =>
        match lookupLabel lmap pl.2 with
        | some model_name => addPos acc2 model_name pl.1
        | none => acc2) acc
      = (pls.filterMap (fun pl =>
          (lookupLabel lmap pl.2).map (fun mname => (mname, pl.1)))).foldl
            (fun a p => addPos a p.1 p.2) acc := by
  intro pls
  induction pls with
  | nil => intro acc; rfl
  | cons pl rest ih =>
    intro acc
    rw [List.foldl_cons, List.filterMap_cons]
    cases hl : lookupLabel lmap pl.2 <;>
      simp only [hl, Option.map_none', Option.map_some', List.foldl_cons] <;>
      exact ih _

theorem foldl_flatMap {α β γ : Type} (f : γ → β → γ) (inner : α → List β) :
    ∀ (l : List α) (acc : γ),
      l.foldl (fun a r => (inner r).foldl f a) acc
        = (l.flatMap inner).foldl f acc := by
  intro l
  induction l with
  | nil => intro acc; rfl
  | cons r rest ih =>
    intro acc
    rw [List.foldl_cons, List.flatMap_cons, List.foldl_append]
    exact ih _

theorem filterMap_entry (pairs : List (Text × Nat)) :
    ∀ ms : List Text, (∀ m ∈ ms, ¬ positionsFor pairs m = []) →
      (ms.map (fun m => (m, positionsFor pairs m))).filterMap (fun e =>
        if e.2.isEmpty then none
        else some (⟨e.1, round2 ((e.2.sum : ℚ) / (e.2.length : ℚ)),
          e.2.length⟩ : AggregateEntry))
      = ms.map (fun m =>
          ⟨m,
           round2 (((positionsFor pairs m).sum : ℚ)
             / ((positionsFor pairs m).length : ℚ)),
           (positionsFor pairs m).length⟩) := by
  intro ms
  induction ms with
  | nil => intro _; rfl
  | cons m rest ih =>
    intro h
    have hm := h m (List.mem_cons_self m rest)
    have hne : (positionsFor pairs m).isEmpty = false := by
      simpa [List.isEmpty_iff] using hm
    rw [List.map_cons, List.filterMap_cons]
    simp only [hne, Bool.false_eq_true, if_false, List.map_cons]
    rw [ih (fun x hx => h x (List.mem_cons_of_mem m hx))]

theorem calc_eq_sorted_preAggregate (records : List RankingRecord)
    (lmap : List (Text × Text)) :
    calculate_aggregate_rankings records lmap
      = sortByAvg (preAggregate records lmap) := by
  simp only [calculate_aggregate_rankings]
  congr 1
  have hstep : (fun (acc : List (Text × List Nat)) (r : RankingRecord) =>
      (List.enumFrom 1 (parse_ranking_from_text r.ranking)).foldl
        (fun acc2 pl =>
          match lookupLabel lmap pl.2 with
          | some model_name => addPos acc2 model_name pl.1
          | none => acc2) acc)
      = fun acc r =>
        ((List.enumFrom 1 (parse_ranking_from_text r.ranking)).filterMap
          (fun pl => (lookupLabel lmap pl.2).map (fun mname => (mname, pl.1)))).foldl
            (fun a p => addPos a p.1 p.2) acc := by
    funext acc r
    exact foldl_resolve lmap _ acc
  rw [hstep,
    foldl_flatMap (fun a p => addPos a p.1 p.2)
      (fun r => (List.enumFrom 1 (parse_ranking_from_text r.ranking)).filterMap
        (fun pl => (lookupLabel lmap pl.2).map (fun mname => (mname, pl.1))))
      records []]
  have hmp : records.flatMap
      (fun r => (List.enumFrom 1 (parse_ranking_from_text r.ranking)).filterMap
        (fun pl => (lookupLabel lmap pl.2).map (fun mname => (mname, pl.1))))
      = mentionPairs records lmap := rfl
  rw [hmp, foldl_addPos_groupBy (mentionPairs records lmap) [] (by simp)]
  rw [List.map_nil, List.nil_append]
  have hfilter : ((mentionPairs records lmap).map Prod.fst).filter
      (fun m => decide (¬ m ∈ ([] : List (Text × List Nat)).map Prod.fst))
      = (mentionPairs records lmap).map Prod.fst := by
    rw [List.filter_eq_self]
    intro a _
    simp
  rw [hfilter, filterMap_entry (mentionPairs records lmap)
    (firstOccur ((mentionPairs records lmap).map Prod.fst))
    (fun m hm => (positionsFor_ne_nil (mentionPairs records lmap) m).mp
      (mem_firstOccur _ m hm))]
  rfl

/-- **C2.** The aggregator equals its spec-side description: each
record's parsed labels are walked with positions 1, 2, 3, …, labels
absent from the label map silently skipped; every mentioned model gets
one entry — mean of its positions rounded to two decimals, with the
count of positions — in order of first mention; never-mentioned models
are omitted; and the result is that entry list stable-sorted ascending
by average rank (sortedness and tie-stability stated explicitly: the
entries of any fixed average rank appear exactly as in the pre-sort
first-mention order). -/
theorem claim2_aggregate (records : List RankingRecord)
    (lmap : List (Text × Text)) (q : ℚ) :
    calculate_aggregate_rankings records lmap = aggregateSpec records lmap
    ∧ List.Sorted entryLE (calculate_aggregate_rankings records lmap)
    ∧ (calculate_aggregate_rankings records lmap).filter
          (fun e => decide (e.average_rank = q))
      = (preAggregate records lmap).filter
          (fun e => decide (e.average_rank = q)) := by
  have heq := calc_eq_sorted_preAggregate records lmap
  refine ⟨heq, ?_, ?_⟩
  · rw [heq]
    exact sorted_sortByAvg _
  · rw [heq]
    exact filter_sortByAvg q _

end Council


